import Mathlib

/-!
Verification development for the `git-workspace` command-line tool
(`src/main.rs`).  The filesystem is modelled as a tree of directories
(`FsTree`), paths as lists of name segments relative to the workspace root,
and the fallible operations of the tool return `Except`, mirroring the
`anyhow::Result` values of the source.  Machine concurrency (the rayon worker
pool of `map_repositories`) is modelled by an explicit interleaving semantics
over per-worker program counters.
-/

namespace GitWorkspace

/-- A filesystem path relative to the workspace root, as a list of
directory-name segments.  The workspace root itself is `[]`. -/
abbrev DirPath := List String

/-- A directory tree.  `name` is the directory's own name, `readErr` models
an I/O error that occurs when the walk tries to read this directory's
entries (e.g. permission denied), and `children` are its subdirectories.
Plain files are not modelled: the walk of `get_all_repositories_to_archive`
ignores them (a file `f` is never in the protected set and `f/.git` is never
a directory). -/
inductive FsTree where
  | node (name : String) (readErr : Bool) (children : List FsTree)

def FsTree.name : FsTree → String
  | .node n _ _ => n

def FsTree.readErr : FsTree → Bool
  | .node _ e _ => e

def FsTree.children : FsTree → List FsTree
  | .node _ _ cs => cs

mutual

/-- Boolean equality on directory trees (structural). -/
def FsTree.beq : FsTree → FsTree → Bool
  | .node n e cs, .node n' e' cs' => n == n' && e == e' && FsTree.beqList cs cs'

def FsTree.beqList : List FsTree → List FsTree → Bool
  | [], [] => true
  | t :: ts, t' :: ts' => FsTree.beq t t' && FsTree.beqList ts ts'
  | _, _ => false

end

mutual

theorem FsTree.beq_iff : ∀ a b : FsTree, FsTree.beq a b = true ↔ a = b
  | .node n e cs, .node n' e' cs' => by
    simp only [FsTree.beq, Bool.and_eq_true, beq_iff_eq, FsTree.node.injEq]
    rw [FsTree.beqList_iff cs cs']
    tauto

theorem FsTree.beqList_iff : ∀ a b : List FsTree, FsTree.beqList a b = true ↔ a = b
  | [], [] => by simp [FsTree.beqList]
  | [], _ :: _ => by simp [FsTree.beqList]
  | _ :: _, [] => by simp [FsTree.beqList]
  | t :: ts, t' :: ts' => by
    simp only [FsTree.beqList, Bool.and_eq_true, List.cons.injEq]
    rw [FsTree.beq_iff t t', FsTree.beqList_iff ts ts']

end

instance : DecidableEq FsTree := fun a b =>
  decidable_of_iff (FsTree.beq a b = true) (FsTree.beq_iff a b)

instance : DecidableEq (List FsTree) := fun a b =>
  decidable_of_iff (FsTree.beqList a b = true) (FsTree.beqList_iff a b)

instance {ε α : Type} [DecidableEq ε] [DecidableEq α] : DecidableEq (Except ε α) := fun x y =>
  match x, y with
  | .ok a, .ok b =>
    if h : a = b then isTrue (by rw [h]) else isFalse (fun hc => by cases hc; exact h rfl)
  | .error a, .error b =>
    if h : a = b then isTrue (by rw [h]) else isFalse (fun hc => by cases hc; exact h rfl)
  | .ok _, .error _ => isFalse (fun hc => by cases hc)
  | .error _, .ok _ => isFalse (fun hc => by cases hc)

/-- Does a directory with children `cs` contain version-control metadata,
i.e. a subdirectory named `.git`?  This models the check
`entry.path().join(".git").is_dir()` of the source. -/
def hasGitChild (cs : List FsTree) : Bool :=
  cs.any (fun t => t.name == ".git")

/-- Look up the children list of the directory at relative path `p`,
descending from a forest of sibling trees.  `List.find?` models the fact
that real directories have at most one entry per name. -/
def lookupForest : List FsTree → DirPath → Option (List FsTree)
  | cs, [] => some cs
  | cs, n :: p =>
    match cs.find? (fun t => t.name == n) with
    | some t => lookupForest t.children p
    | none => none

/-- Is the directory at relative path `p` present and version-controlled? -/
def gitAt (cs : List FsTree) (p : DirPath) : Bool :=
  match lookupForest cs p with
  | some kids => hasGitChild kids
  | none => false

mutual

/-- Well-formedness of a directory tree: sibling names are distinct at every
level (true of every real filesystem). -/
def wfTree : FsTree → Bool
  | .node _ _ cs => decide ((cs.map FsTree.name).Nodup) && wfList cs

def wfList : List FsTree → Bool
  | [] => true
  | t :: ts => wfTree t && wfList ts

end

/-- Well-formedness of the whole workspace forest. -/
def wfForest (cs : List FsTree) : Bool :=
  decide ((cs.map FsTree.name).Nodup) && wfList cs

/-- Modelled from the spec: the `Repository` data type lives in
`repository.rs`, which is not under `src/`.  Per the spec's data model, a
repository has a short `name`, a `full_path` relative to the workspace root
(modelled as its segment list; this is the identity key), a primary remote
URL, and optional upstream URL and branch. -/
structure Repository where
  name : String
  full_path : DirPath
  origin_url : String
  upstream_url : Option String := none
  branch : Option String := none
deriving DecidableEq

/-- Modelled from the spec: `Repository::exists` (in the missing
`repository.rs`) is true iff `workspace/full_path` is a directory containing
version-control metadata (a `.git` subdirectory). -/
def Repository.existsOnDisk (ts : List FsTree) (r : Repository) : Bool :=
  gitAt ts r.full_path

/-- The name of the archive directory created under the workspace root
(the non-Windows branch of `get_all_repositories_to_archive`). -/
def archiveName : String := ".archive"

/-- The protected set built at the start of `get_all_repositories_to_archive`:
the paths of every declared repository that currently exists on disk, plus
the archive directory itself. -/
def protectedPaths (ts : List FsTree) (repositories : List Repository) : List DirPath :=
  ((repositories.filter (fun r => r.existsOnDisk ts)).map (fun r => r.full_path))
    ++ [[archiveName]]

/-- The fixed message produced when the directory iterator yields an error
(`"Error iterating through directory: ..."` in the source). -/
def walkErrorMsg : String := "Error iterating through directory"

mutual

/-- One step of the pruned walk of `get_all_repositories_to_archive`, at the
directory entry `t` whose parent has relative path `path`.  Mirrors the
source loop: if the entry is in the protected set, prune; else if it
contains a `.git` directory, record it and prune; else if reading the
directory fails, yield the traversal error; else descend. -/
def walkTreeE (prot : List DirPath) (path : DirPath) : FsTree → Except String (List DirPath)
  | .node n e cs =>
    let p := path ++ [n]
    if p ∈ prot then .ok []
    else if hasGitChild cs then .ok [p]
    else if e then .error walkErrorMsg
    else walkForestE prot p cs

def walkForestE (prot : List DirPath) (path : DirPath) : List FsTree → Except String (List DirPath)
  | [] => .ok []
  | t :: ts =>
    match walkTreeE prot path t with
    | .error e => .error e
    | .ok l =>
      match walkForestE prot path ts with
      | .error e => .error e
      | .ok l' => .ok (l ++ l')

end

mutual

/-- The error-free walk: same recursion as `walkTreeE`, ignoring read
errors.  `walkTreeE` is `.ok` exactly when no error is hit, and then agrees
with this function (`walkTreeE_eq_walkTree`). -/
def walkTree (prot : List DirPath) (path : DirPath) : FsTree → List DirPath
  | .node n _ cs =>
    let p := path ++ [n]
    if p ∈ prot then []
    else if hasGitChild cs then [p]
    else walkForest prot p cs

def walkForest (prot : List DirPath) (path : DirPath) : List FsTree → List DirPath
  | [] => []
  | t :: ts => walkTree prot path t ++ walkForest prot path ts

end

mutual

/-- Does the walk reach a directory whose entries cannot be read?  Mirrors
the pruning of `walkTreeE`: errors inside pruned subtrees are not reached. -/
def hitsErrTree (prot : List DirPath) (path : DirPath) : FsTree → Bool
  | .node n e cs =>
    let p := path ++ [n]
    if p ∈ prot then false
    else if hasGitChild cs then false
    else if e then true
    else hitsErrForest prot p cs

def hitsErrForest (prot : List DirPath) (path : DirPath) : List FsTree → Bool
  | [] => false
  | t :: ts => hitsErrTree prot path t || hitsErrForest prot path ts

end

/-- `get_all_repositories_to_archive` from `src/main.rs`: build the
protected set, then walk the workspace tree from the root, pruning protected
directories, recording orphaned version-controlled directories together with
their destination under the archive root, and aborting on a traversal error.
The workspace root is modelled as the forest `ts` of its entries plus a
`rootErr` flag (a read error on the root directory itself); creating the
archive directory when absent does not affect the computed plan, because the
archive path is always a member of the protected set. -/
def get_all_repositories_to_archive (ts : List FsTree) (rootErr : Bool)
    (repositories : List Repository) : Except String (List (DirPath × DirPath)) :=
  match (if ([] : DirPath) ∈ protectedPaths ts repositories then Except.ok []
         else if hasGitChild ts then Except.ok [[]]
         else if rootErr then Except.error walkErrorMsg
         else walkForestE (protectedPaths ts repositories) [] ts : Except String (List DirPath)) with
  | .error e => .error e
  | .ok sources => .ok (sources.map (fun s => (s, archiveName :: s)))

/-! ### Generic helpers about paths, lookups, and well-formedness -/

theorem take_isPre {α : Type} (n : Nat) (l : List α) : l.take n <+: l :=
  List.take_prefix n l

theorem isPre_comparable {α : Type} {l₁ l₂ l₃ : List α} (h₁ : l₁ <+: l₃) (h₂ : l₂ <+: l₃) :
    l₁ <+: l₂ ∨ l₂ <+: l₁ :=
  List.prefix_or_prefix_of_prefix h₁ h₂

theorem isPre_cons_of_ne_nil {α : Type} {n : α} {q rest : List α}
    (h : q <+: n :: rest) (hq : q ≠ []) : ∃ q', q = n :: q' ∧ q' <+: rest := by
  match q, h with
  | [], _ => exact absurd rfl hq
  | a :: q', h =>
    rw [List.cons_prefix_cons] at h
    exact ⟨q', by rw [h.1], h.2⟩

theorem wfForest_names {cs : List FsTree} (h : wfForest cs = true) :
    (cs.map FsTree.name).Nodup := by
  have := (Bool.and_eq_true _ _).mp h
  exact of_decide_eq_true this.1

theorem wfList_mem {cs : List FsTree} (h : wfList cs = true) {t : FsTree} (ht : t ∈ cs) :
    wfTree t = true := by
  induction cs with
  | nil => cases ht
  | cons a l ih =>
    rw [wfList, Bool.and_eq_true] at h
    rcases List.mem_cons.mp ht with rfl | ht'
    · exact h.1
    · exact ih h.2 ht'

theorem wfTree_children {t : FsTree} (h : wfTree t = true) : wfForest t.children = true := by
  cases t with
  | node n e cs => rw [wfTree] at h; exact h

theorem wfForest_children {cs : List FsTree} (h : wfForest cs = true) {t : FsTree}
    (ht : t ∈ cs) : wfForest t.children = true := by
  have := (Bool.and_eq_true _ _).mp h
  exact wfTree_children (wfList_mem this.2 ht)

/-- In a well-formed forest, `find?` by name locates exactly the member tree
with that name. -/
theorem find?_name_eq {cs : List FsTree} (h : (cs.map FsTree.name).Nodup) {t : FsTree}
    (ht : t ∈ cs) {n : String} (hn : t.name = n) :
    cs.find? (fun u => u.name == n) = some t := by
  induction cs with
  | nil => cases ht
  | cons a l ih =>
    rw [List.map_cons, List.nodup_cons] at h
    rcases List.mem_cons.mp ht with rfl | ht'
    · rw [List.find?_cons_of_pos _ (by simp [hn])]
    · have hne : a.name ≠ n := by
        intro hcontra
        exact h.1 (hcontra ▸ hn ▸ List.mem_map_of_mem FsTree.name ht')
      rw [List.find?_cons_of_neg _ (by simp [hne]), ih h.2 ht']

theorem gitAt_nil (cs : List FsTree) : gitAt cs [] = hasGitChild cs := rfl

theorem gitAt_cons {cs : List FsTree} {t : FsTree} {n : String}
    (hfind : cs.find? (fun u => u.name == n) = some t) (p : DirPath) :
    gitAt cs (n :: p) = gitAt t.children p := by
  rw [gitAt, lookupForest, hfind]; rfl

/-! ### The walk: structural lemmas -/

theorem mem_walkForest_iff {prot : List DirPath} {path : DirPath} {cs : List FsTree}
    {s : DirPath} : s ∈ walkForest prot path cs ↔ ∃ t ∈ cs, s ∈ walkTree prot path t := by
  induction cs with
  | nil => simp [walkForest]
  | cons a l ih => simp [walkForest, ih]

mutual

/-- Every source recorded by the walk of tree `t` lies strictly below the
parent path, starting with `t`'s own name. -/
theorem walkTree_shape : ∀ {prot path} (t : FsTree) {s : DirPath},
    s ∈ walkTree prot path t → ∃ rest, s = path ++ t.name :: rest
  | prot, path, .node n e cs, s => by
    intro hs
    rw [walkTree] at hs
    split at hs
    · cases hs
    · split at hs
      · rw [List.mem_singleton] at hs
        exact ⟨[], by simpa using hs⟩
      · rcases walkForest_shape cs hs with ⟨suf, hne, rfl⟩
        rcases suf with _ | ⟨m, suf'⟩
        · exact absurd rfl hne
        · exact ⟨m :: suf', by simp [FsTree.name]⟩

theorem walkForest_shape : ∀ {prot path} (cs : List FsTree) {s : DirPath},
    s ∈ walkForest prot path cs → ∃ suf, suf ≠ [] ∧ s = path ++ suf
  | prot, path, [], s => by intro hs; cases hs
  | prot, path, t :: ts, s => by
    intro hs
    rw [walkForest, List.mem_append] at hs
    rcases hs with hs | hs
    · rcases walkTree_shape t hs with ⟨rest, rfl⟩
      exact ⟨t.name :: rest, by simp, rfl⟩
    · exact walkForest_shape ts hs

end

mutual

/-- The walk never records a source at or below a protected path: if no
path at or above the current one is protected, then no recorded source has a
protected path as a prefix. -/
theorem walkTree_no_protected : ∀ {prot path} (t : FsTree)
    (hinv : ∀ q, q <+: path → q ∉ prot) {s : DirPath},
    s ∈ walkTree prot path t → ∀ p ∈ prot, ¬ p <+: s
  | prot, path, .node n e cs, hinv, s => by
    intro hs p hp hps
    rw [walkTree] at hs
    split at hs
    · cases hs
    · rename_i hprot
      split at hs
      · rw [List.mem_singleton] at hs
        subst hs
        rcases List.prefix_concat_iff.mp hps with rfl | h
        · exact hprot hp
        · exact hinv p h hp
      · have hinv' : ∀ q, q <+: path ++ [n] → q ∉ prot := by
          intro q hq
          rcases List.prefix_concat_iff.mp hq with rfl | h
          · exact hprot
          · exact hinv q h
        exact walkForest_no_protected cs hinv' hs p hp hps

theorem walkForest_no_protected : ∀ {prot path} (cs : List FsTree)
    (hinv : ∀ q, q <+: path → q ∉ prot) {s : DirPath},
    s ∈ walkForest prot path cs → ∀ p ∈ prot, ¬ p <+: s
  | prot, path, [], hinv, s => by intro hs; cases hs
  | prot, path, t :: ts, hinv, s => by
    intro hs
    rw [walkForest, List.mem_append] at hs
    rcases hs with hs | hs
    · exact walkTree_no_protected t hinv hs
    · exact walkForest_no_protected ts hinv hs

end

mutual

/-- The fallible walk returns `.ok` exactly when it hits no read error, and
then agrees with the error-free walk. -/
theorem walkTreeE_eq_walkTree : ∀ (prot path) (t : FsTree),
    walkTreeE prot path t =
      if hitsErrTree prot path t then .error walkErrorMsg
      else .ok (walkTree prot path t)
  | prot, path, .node n e cs => by
    rw [walkTreeE, hitsErrTree, walkTree]
    split
    · simp
    · split
      · simp
      · split
        · simp
        · rw [walkForestE_eq_walkForest]

theorem walkForestE_eq_walkForest : ∀ (prot path) (cs : List FsTree),
    walkForestE prot path cs =
      if hitsErrForest prot path cs then .error walkErrorMsg
      else .ok (walkForest prot path cs)
  | prot, path, [] => by rw [walkForestE, hitsErrForest, walkForest]; simp
  | prot, path, t :: ts => by
    rw [walkForestE, hitsErrForest, walkForest,
      walkTreeE_eq_walkTree prot path t, walkForestE_eq_walkForest prot path ts]
    by_cases h₁ : hitsErrTree prot path t = true
    · simp [h₁]
    · by_cases h₂ : hitsErrForest prot path ts = true
      · simp [h₁, h₂]
      · simp [h₁, h₂]

end

theorem gitAt_cons_ne {a : FsTree} {l : List FsTree} {n : String} (h : a.name ≠ n)
    (p : DirPath) : gitAt (a :: l) (n :: p) = gitAt l (n :: p) := by
  rw [gitAt, lookupForest, List.find?_cons_of_neg _ (by simp [h])]
  rfl

/-- Characterization of walk membership in a well-formed forest: the path
`path ++ suf` is recorded by the walk iff the directory at relative path
`suf` is version-controlled, no strict ancestor of it (below the walk root)
is version-controlled, and neither it nor any ancestor is protected. -/
theorem mem_walkForest_char : ∀ (suf : DirPath) {prot : List DirPath} {path : DirPath} {cs : List FsTree},
    wfForest cs = true →
    ((path ++ suf) ∈ walkForest prot path cs ↔
      (suf ≠ [] ∧ gitAt cs suf = true ∧
        (∀ q, q <+: suf → q ≠ suf → q ≠ [] → gitAt cs q = false) ∧
        (∀ q, q <+: suf → q ≠ [] → (path ++ q) ∉ prot))) := by
  intro suf
  induction suf with
  | nil =>
    intro prot path cs hw
    constructor
    · intro hmem
      rcases walkForest_shape cs (by simpa using hmem) with ⟨suf', hne, heq⟩
      exact absurd ((List.append_right_eq_self.mp heq.symm)) hne
    · rintro ⟨hne, -⟩
      exact absurd rfl hne
  | cons n rest ih =>
    intro prot path cs hw
    constructor
    · intro hmem
      rcases mem_walkForest_iff.mp hmem with ⟨t, htcs, hmemt⟩
      rcases walkTree_shape t hmemt with ⟨rest', hshape⟩
      have hname : t.name = n := by
        have := List.append_cancel_left hshape
        exact (List.cons.injEq _ _ _ _ ▸ this).1.symm
      have hfind : cs.find? (fun u => u.name == n) = some t :=
        find?_name_eq (wfForest_names hw) htcs hname
      cases t with
      | node m e kids =>
        have hm : n = m := hname.symm
        subst hm
        rw [walkTree] at hmemt
        split at hmemt
        · cases hmemt
        · rename_i hprot1
          split at hmemt
          · rename_i hgitkids
            rw [List.mem_singleton] at hmemt
            have hrest : rest = [] := by
              have := List.append_cancel_left hmemt
              simpa using this
            subst hrest
            refine ⟨by simp, ?_, ?_, ?_⟩
            · rw [gitAt_cons hfind, gitAt_nil]
              exact hgitkids
            · intro q hq hqne hqnil
              rcases isPre_cons_of_ne_nil hq hqnil with ⟨q', rfl, hq'⟩
              have : q' = [] := List.prefix_nil.mp hq'
              subst this
              exact absurd rfl hqne
            · intro q hq hqnil
              rcases isPre_cons_of_ne_nil hq hqnil with ⟨q', rfl, hq'⟩
              have : q' = [] := List.prefix_nil.mp hq'
              subst this
              exact hprot1
          · rename_i hgitkids
            have hgitkids' : hasGitChild kids = false := by
              simpa using hgitkids
            have hmemt' : (path ++ [n]) ++ rest ∈ walkForest prot (path ++ [n])
                ((FsTree.node n e kids).children) := by
              simpa [FsTree.children] using hmemt
            have hwkids : wfForest (FsTree.node n e kids).children = true :=
              wfForest_children hw htcs
            rcases (ih hwkids).mp hmemt' with ⟨hne', hgit', hanc', hprot'⟩
            refine ⟨by simp, ?_, ?_, ?_⟩
            · rw [gitAt_cons hfind]
              exact hgit'
            · intro q hq hqne hqnil
              rcases isPre_cons_of_ne_nil hq hqnil with ⟨q', rfl, hq'⟩
              rcases eq_or_ne q' [] with rfl | hq'nil
              · rw [gitAt_cons hfind, gitAt_nil]
                exact hgitkids'
              · rw [gitAt_cons hfind]
                exact hanc' q' hq' (fun hcontra => hqne (by rw [hcontra])) hq'nil
            · intro q hq hqnil
              rcases isPre_cons_of_ne_nil hq hqnil with ⟨q', rfl, hq'⟩
              rcases eq_or_ne q' [] with rfl | hq'nil
              · exact hprot1
              · have := hprot' q' hq' hq'nil
                simpa using this
    · rintro ⟨-, hgit, hanc, hprot⟩
      rcases hfind : cs.find? (fun u => u.name == n) with - | t
      · rw [gitAt, lookupForest, hfind] at hgit
        cases hgit
      · have htcs : t ∈ cs := List.mem_of_find?_eq_some hfind
        have hname : t.name = n := by
          have := List.find?_some hfind
          simpa using this
        cases t with
        | node m e kids =>
          have hm : n = m := hname.symm
          subst hm
          apply mem_walkForest_iff.mpr
          refine ⟨FsTree.node n e kids, htcs, ?_⟩
          rw [walkTree]
          have hn1 : [n] <+: n :: rest := ⟨rest, rfl⟩
          have hnotprot : path ++ [n] ∉ prot := hprot [n] hn1 (by simp)
          rw [if_neg hnotprot]
          rcases eq_or_ne rest [] with rfl | hrest
          · have : hasGitChild kids = true := by
              rw [gitAt_cons hfind, gitAt_nil] at hgit
              exact hgit
            rw [if_pos this]
            simp
          · have hkidsgit : hasGitChild kids = false := by
              have := hanc [n] hn1 (by simp [hrest]) (by simp)
              rw [gitAt_cons hfind, gitAt_nil] at this
              exact this
            rw [hkidsgit, if_neg Bool.false_ne_true]
            have hwkids : wfForest (FsTree.node n e kids).children = true :=
              wfForest_children hw htcs
            have hgoal : (path ++ [n]) ++ rest ∈
                walkForest prot (path ++ [n]) (FsTree.node n e kids).children := by
              apply (ih hwkids).mpr
              refine ⟨hrest, ?_, ?_, ?_⟩
              · rw [gitAt_cons hfind] at hgit
                exact hgit
              · intro q' hq' hq'ne hq'nil
                have := hanc (n :: q') (List.cons_prefix_cons.mpr ⟨rfl, hq'⟩)
                  (by simp [hq'ne]) (by simp)
                rw [gitAt_cons hfind] at this
                exact this
              · intro q' hq' hq'nil
                have := hprot (n :: q') (List.cons_prefix_cons.mpr ⟨rfl, hq'⟩) (by simp)
                simpa using this
            simpa [FsTree.children] using hgoal

/-- A walk of trees none of which is named `n` records nothing of the form
`path ++ n :: rest`. -/
theorem count_walkForest_zero {prot : List DirPath} {path : DirPath} {cs : List FsTree} {n : String}
    {rest : DirPath} (h : ∀ t ∈ cs, t.name ≠ n) :
    (walkForest prot path cs).count (path ++ n :: rest) = 0 := by
  rw [List.count_eq_zero]
  intro hmem
  rcases mem_walkForest_iff.mp hmem with ⟨t, htcs, hmemt⟩
  rcases walkTree_shape t hmemt with ⟨rest', hshape⟩
  have := List.append_cancel_left hshape
  exact h t htcs ((List.cons.injEq _ _ _ _ ▸ this).1.symm)

theorem count_walkTree_zero {prot : List DirPath} {path : DirPath} {t : FsTree} {n : String}
    {rest : DirPath} (h : t.name ≠ n) :
    (walkTree prot path t).count (path ++ n :: rest) = 0 := by
  rw [List.count_eq_zero]
  intro hmem
  rcases walkTree_shape t hmem with ⟨rest', hshape⟩
  have := List.append_cancel_left hshape
  exact h ((List.cons.injEq _ _ _ _ ▸ this).1.symm)

theorem count_walkForest_aux : ∀ (cs : List FsTree) {prot : List DirPath} {path : DirPath} {n : String}
    {rest : DirPath} {t : FsTree},
    (cs.map FsTree.name).Nodup →
    cs.find? (fun u => u.name == n) = some t →
    (walkTree prot path t).count (path ++ n :: rest) = 1 →
    (walkForest prot path cs).count (path ++ n :: rest) = 1 := by
  intro cs
  induction cs with
  | nil => intro prot path n rest t _ hfind; cases hfind
  | cons a l ihl =>
    intro prot path n rest t hnodup hfind hone
    rw [List.map_cons, List.nodup_cons] at hnodup
    rw [walkForest, List.count_append]
    by_cases hname : a.name = n
    · have : a = t := by
        rw [List.find?_cons_of_pos _ (by simp [hname])] at hfind
        exact Option.some.injEq _ _ ▸ hfind
      subst this
      rw [hone, count_walkForest_zero]
      intro u hu hcontra
      refine hnodup.1 ?_
      rw [hname, ← hcontra]
      exact List.mem_map_of_mem FsTree.name hu
    · rw [List.find?_cons_of_neg _ (by simp [hname])] at hfind
      rw [count_walkTree_zero hname, ihl hnodup.2 hfind hone]

/-- Under the hypotheses of `mem_walkForest_char`, the walk records the
orphan exactly once. -/
theorem count_walkForest_char : ∀ (suf : DirPath) (prot : List DirPath) (path : DirPath)
    {cs : List FsTree},
    wfForest cs = true →
    suf ≠ [] →
    gitAt cs suf = true →
    (∀ q, q <+: suf → q ≠ suf → q ≠ [] → gitAt cs q = false) →
    (∀ q, q <+: suf → q ≠ [] → (path ++ q) ∉ prot) →
    (walkForest prot path cs).count (path ++ suf) = 1 := by
  intro suf
  induction suf with
  | nil => intro _ _ _ _ hne; exact absurd rfl hne
  | cons n rest ih =>
    intro prot path cs hw _ hgit hanc hprot
    rcases hfind : cs.find? (fun u => u.name == n) with - | t
    · rw [gitAt, lookupForest, hfind] at hgit
      cases hgit
    · have htcs : t ∈ cs := List.mem_of_find?_eq_some hfind
      have hname : t.name = n := by
        have := List.find?_some hfind
        simpa using this
      apply count_walkForest_aux cs (wfForest_names hw) hfind
      cases t with
      | node m e kids =>
        have hm : n = m := hname.symm
        subst hm
        rw [walkTree]
        have hn1 : [n] <+: n :: rest := ⟨rest, rfl⟩
        have hnotprot : path ++ [n] ∉ prot := hprot [n] hn1 (by simp)
        rw [if_neg hnotprot]
        rcases eq_or_ne rest [] with rfl | hrest
        · have : hasGitChild kids = true := by
            rw [gitAt_cons hfind, gitAt_nil] at hgit
            exact hgit
          rw [if_pos this]
          simp
        · have hkidsgit : hasGitChild kids = false := by
            have := hanc [n] hn1 (by simp [hrest]) (by simp)
            rw [gitAt_cons hfind, gitAt_nil] at this
            exact this
          rw [hkidsgit, if_neg Bool.false_ne_true]
          have hwkids : wfForest (FsTree.node n e kids).children = true :=
            wfForest_children hw htcs
          have hgoal : (walkForest prot (path ++ [n])
              ((FsTree.node n e kids).children)).count ((path ++ [n]) ++ rest) = 1 := by
            apply ih _ _ hwkids hrest
            · rw [gitAt_cons hfind] at hgit
              exact hgit
            · intro q' hq' hq'ne hq'nil
              have := hanc (n :: q') (List.cons_prefix_cons.mpr ⟨rfl, hq'⟩)
                (by simp [hq'ne]) (by simp)
              rw [gitAt_cons hfind] at this
              exact this
            · intro q' hq' hq'nil
              have := hprot (n :: q') (List.cons_prefix_cons.mpr ⟨rfl, hq'⟩) (by simp)
              simpa using this
          simpa [FsTree.children] using hgoal

/-! ### Claim C1: archive pruning -/

/-- Mirrors the decision structure of `get_all_repositories_to_archive` as a
Boolean: does the detection hit a traversal error? -/
def detectionHitsError (ts : List FsTree) (rootErr : Bool) (repos : List Repository) : Bool :=
  if ([] : DirPath) ∈ protectedPaths ts repos then false
  else if hasGitChild ts then false
  else if rootErr then true
  else hitsErrForest (protectedPaths ts repos) [] ts

theorem mem_protectedPaths_of_declared {ts : List FsTree} {repos : List Repository}
    {r : Repository} (hr : r ∈ repos) (hrex : r.existsOnDisk ts = true) :
    r.full_path ∈ protectedPaths ts repos := by
  rw [protectedPaths]
  exact List.mem_append_left _
    (List.mem_map_of_mem _ (List.mem_filter.mpr ⟨hr, hrex⟩))

/-- If the detection returned a plan, that plan is the mapped output of the
error-free walk, and the root cases did not fire. -/
theorem get_all_ok_plan {ts : List FsTree} {rootErr : Bool} {repos : List Repository}
    {plan : List (DirPath × DirPath)}
    (h0prot : ([] : DirPath) ∉ protectedPaths ts repos)
    (h0git : hasGitChild ts = false)
    (hok : get_all_repositories_to_archive ts rootErr repos = .ok plan) :
    plan = (walkForest (protectedPaths ts repos) [] ts).map (fun s => (s, archiveName :: s)) := by
  cases rootErr with
  | true =>
    exfalso
    simp only [get_all_repositories_to_archive, if_neg h0prot, h0git,
      Bool.false_eq_true, if_false, if_true] at hok
    cases hok
  | false =>
    cases hh : hitsErrForest (protectedPaths ts repos) [] ts with
    | true =>
      exfalso
      simp only [get_all_repositories_to_archive, if_neg h0prot, h0git,
        Bool.false_eq_true, if_false, walkForestE_eq_walkForest, hh, if_true] at hok
      cases hok
    | false =>
      simp only [get_all_repositories_to_archive, if_neg h0prot, h0git,
        Bool.false_eq_true, if_false, walkForestE_eq_walkForest, hh] at hok
      injection hok with hok'
      exact hok'.symm

/-- C1 (amended): in a well-formed workspace with a declared repository `r`
that exists on disk, and an orphaned version-controlled directory `ab` none
of whose ancestors (including the workspace root) is protected or
version-controlled, a successful detection produces a plan that records
`ab → archive/ab` exactly once, records nothing at or below the declared
repository's path, and records nothing strictly below `ab` (in particular no
nested repository inside the orphan): the walk never descends into a
protected-set member or into a recorded orphan. -/
theorem archive_plan_records_orphan_exactly_once
    (ts : List FsTree) (rootErr : Bool) (repos : List Repository) (r : Repository)
    (ab : DirPath) (plan : List (DirPath × DirPath))
    (hwf : wfForest ts = true)
    (hr : r ∈ repos) (hrex : r.existsOnDisk ts = true)
    (hab_git : gitAt ts ab = true)
    (hab_ne : ab ≠ [])
    (hanc : ∀ i, i ≤ ab.length →
      ab.take i ∉ protectedPaths ts repos ∧ (i < ab.length → gitAt ts (ab.take i) = false))
    (hok : get_all_repositories_to_archive ts rootErr repos = .ok plan) :
    plan.countP (fun e => e.1 == ab) = 1 ∧
    (ab, archiveName :: ab) ∈ plan ∧
    (∀ e ∈ plan, ¬ r.full_path <+: e.1) ∧
    (∀ e ∈ plan, e.1 ≠ ab → ¬ ab <+: e.1) := by
  have hprotq : ∀ q, q <+: ab → q ∉ protectedPaths ts repos := by
    intro q hq
    have h1 : q = ab.take q.length := List.prefix_iff_eq_take.mp hq
    have h2 : q.length ≤ ab.length := hq.length_le
    rw [h1]
    exact (hanc q.length h2).1
  have hgitq : ∀ q, q <+: ab → q ≠ ab → gitAt ts q = false := by
    intro q hq hne
    have h1 : q = ab.take q.length := List.prefix_iff_eq_take.mp hq
    have h2 : q.length ≤ ab.length := hq.length_le
    have h3 : q.length < ab.length :=
      lt_of_le_of_ne h2 (fun hl => hne (hq.eq_of_length hl))
    rw [h1]
    exact (hanc q.length h2).2 h3
  have h0prot : ([] : DirPath) ∉ protectedPaths ts repos :=
    hprotq [] List.nil_prefix
  have h0git : hasGitChild ts = false := by
    have := hgitq [] List.nil_prefix (fun h => hab_ne h.symm)
    rw [gitAt_nil] at this
    exact this
  have hplan := get_all_ok_plan h0prot h0git hok
  refine ⟨?_, ?_, ?_, ?_⟩
  · rw [hplan, List.countP_map]
    have hcomp : ((fun e : DirPath × DirPath => e.1 == ab) ∘ fun s => (s, archiveName :: s))
        = fun s => s == ab := rfl
    rw [hcomp, ← List.count_eq_countP]
    have := count_walkForest_char ab (protectedPaths ts repos) [] hwf hab_ne hab_git
      (fun q hq hne _ => hgitq q hq hne)
      (fun q hq _ => by simpa using hprotq q hq)
    simpa using this
  · rw [hplan]
    have hmem : ([] : DirPath) ++ ab ∈ walkForest (protectedPaths ts repos) [] ts := by
      apply (mem_walkForest_char ab hwf).mpr
      exact ⟨hab_ne, hab_git, fun q hq hne _ => hgitq q hq hne,
        fun q hq _ => by simpa using hprotq q hq⟩
    exact List.mem_map_of_mem _ (by simpa using hmem)
  · intro e he hcontra
    rw [hplan] at he
    rcases List.mem_map.mp he with ⟨s, hs, rfl⟩
    have hinv : ∀ q, q <+: ([] : DirPath) → q ∉ protectedPaths ts repos := by
      intro q hq
      rw [List.prefix_nil] at hq
      subst hq
      exact h0prot
    exact walkForest_no_protected ts hinv hs r.full_path
      (mem_protectedPaths_of_declared hr hrex) hcontra
  · intro e he hene hcontra
    rw [hplan] at he
    rcases List.mem_map.mp he with ⟨s, hs, rfl⟩
    have hs' : ([] : DirPath) ++ s ∈ walkForest (protectedPaths ts repos) [] ts := by
      simpa using hs
    rcases (mem_walkForest_char s hwf).mp hs' with ⟨-, -, hancs, -⟩
    have : gitAt ts ab = false := hancs ab hcontra (fun h => hene h.symm) hab_ne
    rw [this] at hab_git
    cases hab_git

/-- A `.git` marker directory. -/
def gitMarker : FsTree := .node ".git" false []

/-- The declared repository `x/y`, present on disk with `.git`. -/
def repoXY : Repository :=
  { name := "y", full_path := ["x", "y"], origin_url := "origin" }

def treeXY : FsTree := .node "x" false [.node "y" false [gitMarker]]

/-- The scenario workspace of the claim: declared `x/y`, orphan `a/b`
containing `.git`, nested `a/b/nested` containing `.git`. -/
def fsScenario : List FsTree :=
  [treeXY,
   .node "a" false [.node "b" false [gitMarker, .node "nested" false [gitMarker]]]]

/-- The counterexample workspace: same as `fsScenario`, except that the
undeclared parent directory `a` itself also contains `.git`. -/
def fsCx : List FsTree :=
  [treeXY,
   .node "a" false [gitMarker, .node "b" false [gitMarker, .node "nested" false [gitMarker]]]]

/-- C1 counterexample: the claim as stated is false.  In `fsCx` the
workspace contains (a) the declared repository `x/y` existing on disk,
(b) the orphaned version-controlled directory `a/b` with no matching
declaration, and (c) the nested version-controlled directory `a/b/nested` —
yet the computed plan is `[(a, archive/a)]`: it has no entry mapping
`a/b` to `archive/a/b`, because the walk records the undeclared
version-controlled parent `a` first and never descends to `a/b`. -/
theorem archive_plan_claim_counterexample :
    (repoXY ∈ [repoXY] ∧ repoXY.full_path = ["x", "y"] ∧
      repoXY.existsOnDisk fsCx = true) ∧
    (gitAt fsCx ["a", "b"] = true ∧ ∀ r ∈ [repoXY], r.full_path ≠ ["a", "b"]) ∧
    gitAt fsCx ["a", "b", "nested"] = true ∧
    get_all_repositories_to_archive fsCx false [repoXY] =
      .ok [(["a"], [archiveName, "a"])] ∧
    (["a", "b"], [archiveName, "a", "b"]) ∉ [(["a"], [archiveName, "a"])] := by
  decide

/-- Witness for C1 (amended) at the scenario workspace `fsScenario`. -/
theorem archive_plan_records_orphan_exactly_once_witness :
    [(["a", "b"], [archiveName, "a", "b"])].countP
        (fun e => e.1 == (["a", "b"] : DirPath)) = 1 ∧
    ((["a", "b"] : DirPath), archiveName :: ["a", "b"]) ∈
      [(["a", "b"], [archiveName, "a", "b"])] ∧
    (∀ e ∈ [(["a", "b"], [archiveName, "a", "b"])], ¬ repoXY.full_path <+: e.1) ∧
    (∀ e ∈ [(["a", "b"], [archiveName, "a", "b"])],
      e.1 ≠ ["a", "b"] → ¬ (["a", "b"] : DirPath) <+: e.1) := by
  exact archive_plan_records_orphan_exactly_once fsScenario false [repoXY] repoXY
    ["a", "b"] [(["a", "b"], [archiveName, "a", "b"])]
    (by decide) (by decide) (by decide) (by decide) (by decide) (by decide) (by decide)

/-! ### Claim C6: traversal errors abort the detection -/

/-- C6: if the walk encounters an I/O error at any (non-pruned) entry, the
archive detection returns that error; no partial plan is produced (the
`Except` value carries either the full plan or the error, never both). -/
theorem get_all_error_of_hitsError (ts : List FsTree) (rootErr : Bool)
    (repos : List Repository)
    (h : detectionHitsError ts rootErr repos = true) :
    get_all_repositories_to_archive ts rootErr repos = .error walkErrorMsg := by
  rw [detectionHitsError] at h
  rw [get_all_repositories_to_archive]
  by_cases h0 : ([] : DirPath) ∈ protectedPaths ts repos
  · rw [if_pos h0] at h
    cases h
  · rw [if_neg h0] at h ⊢
    cases hg : hasGitChild ts with
    | true =>
      rw [hg, if_pos rfl] at h
      cases h
    | false =>
      rw [hg, if_neg Bool.false_ne_true] at h
      rw [if_neg Bool.false_ne_true]
      cases rootErr with
      | true => rfl
      | false =>
        rw [if_neg Bool.false_ne_true] at h ⊢
        rw [walkForestE_eq_walkForest, h]
        rfl

/-- The workspace used as the C6 witness: the directory `bad` cannot be
read. -/
def fsErr : List FsTree := [treeXY, .node "bad" true []]

/-- Witness for C6: on `fsErr` the detection returns the traversal error. -/
theorem get_all_error_of_hitsError_witness :
    get_all_repositories_to_archive fsErr false [repoXY] = .error walkErrorMsg :=
  get_all_error_of_hitsError fsErr false [repoXY] (by decide)

/-! ### Claim C3: the lock pipeline (sort + adjacent dedup) -/

/-- Modelled from the spec: the ordering on `Repository` (its `Ord`
derivation lives in the missing `repository.rs`) is the total order on the
identity key `full_path`. -/
def repoLe (a b : Repository) : Bool :=
  decide (a.full_path ≤ b.full_path)

/-- `Vec::dedup` applied after the sort in `lock`: drop each element whose
identity key equals its predecessor's (spec: two repositories are equal iff
their `full_path`s are equal). -/
def dedupAdj : List Repository → List Repository
  | [] => []
  | [a] => [a]
  | a :: b :: rest =>
    if a.full_path = b.full_path then dedupAdj (a :: rest)
    else a :: dedupAdj (b :: rest)
termination_by l => l.length

/-- The lock-generation pipeline of `lock` in `src/main.rs`: flatten the
per-provider repository lists, sort by the repository ordering, and
deduplicate adjacent equals (`all_repositories.sort(); all_repositories.dedup()`). -/
def lock_pipeline (results : List (List Repository)) : List Repository :=
  dedupAdj (results.flatten.mergeSort repoLe)

theorem repoLe_trans : ∀ a b c, repoLe a b = true → repoLe b c = true → repoLe a c = true := by
  intro a b c hab hbc
  rw [repoLe] at hab hbc ⊢
  exact decide_eq_true (le_trans (of_decide_eq_true hab) (of_decide_eq_true hbc))

theorem repoLe_total : ∀ a b, (repoLe a b || repoLe b a) = true := by
  intro a b
  rw [repoLe, repoLe]
  rcases le_total a.full_path b.full_path with h | h
  · rw [decide_eq_true h, Bool.true_or]
  · rw [decide_eq_true h, Bool.or_true]

/-- `dedupAdj` preserves the set of identity keys. -/
theorem dedupAdj_key_mem : ∀ (l : List Repository) (p : DirPath),
    (p ∈ (dedupAdj l).map (fun r => r.full_path) ↔ p ∈ l.map (fun r => r.full_path)) := by
  intro l
  induction l using dedupAdj.induct with
  | case1 => intro p; rw [dedupAdj]
  | case2 a => intro p; rw [dedupAdj]
  | case3 a b rest h ih =>
    intro p
    rw [dedupAdj, if_pos h]
    rw [ih p]
    simp only [List.map_cons, List.mem_cons]
    constructor
    · rintro (rfl | hp)
      · exact Or.inl rfl
      · exact Or.inr (Or.inr hp)
    · rintro (rfl | rfl | hp)
      · exact Or.inl rfl
      · exact Or.inl h.symm
      · exact Or.inr hp
  | case4 a b rest h ih =>
    intro p
    rw [dedupAdj, if_neg h]
    simp only [List.map_cons, List.mem_cons] at ih ⊢
    rw [ih p]

/-- After `dedupAdj`, a sorted key sequence becomes strictly sorted. -/
theorem dedupAdj_sorted : ∀ (l : List Repository),
    (l.map (fun r => r.full_path)).Pairwise (· ≤ ·) →
    ((dedupAdj l).map (fun r => r.full_path)).Pairwise (· < ·) := by
  intro l
  induction l using dedupAdj.induct with
  | case1 => intro _; rw [dedupAdj]; simp
  | case2 a => intro _; rw [dedupAdj]; simp
  | case3 a b rest h ih =>
    intro hs
    rw [dedupAdj, if_pos h]
    apply ih
    rw [List.map_cons, List.pairwise_cons] at hs ⊢
    refine ⟨?_, hs.2.tail⟩
    intro p hp
    exact hs.1 p (List.mem_cons_of_mem _ hp)
  | case4 a b rest h ih =>
    intro hs
    rw [dedupAdj, if_neg h]
    rw [List.map_cons, List.pairwise_cons] at hs
    rw [List.map_cons, List.pairwise_cons]
    refine ⟨?_, ih hs.2⟩
    intro p hp
    rw [dedupAdj_key_mem] at hp
    have hab : a.full_path < b.full_path :=
      lt_of_le_of_ne (hs.1 b.full_path (List.mem_cons_self _ _)) h
    rw [List.map_cons, List.mem_cons] at hp
    rw [List.map_cons, List.pairwise_cons] at hs
    rcases hp with rfl | hp
    · exact hab
    · exact lt_of_lt_of_le hab (hs.2.1 p hp)

/-- The sorted key sequence of the sort step. -/
theorem mergeSort_keys_sorted (l : List Repository) :
    ((l.mergeSort repoLe).map (fun r => r.full_path)).Pairwise (· ≤ ·) := by
  have := List.sorted_mergeSort repoLe_trans repoLe_total l
  rw [List.pairwise_map]
  exact this.imp (fun h => of_decide_eq_true h)

theorem lock_pipeline_key_mem (results : List (List Repository)) (p : DirPath) :
    p ∈ (lock_pipeline results).map (fun r => r.full_path) ↔
      p ∈ results.flatten.map (fun r => r.full_path) := by
  rw [lock_pipeline, dedupAdj_key_mem]
  constructor
  · intro hp
    rcases List.mem_map.mp hp with ⟨r, hr, rfl⟩
    exact List.mem_map_of_mem _ ((List.mergeSort_perm results.flatten repoLe).mem_iff.mp hr)
  · intro hp
    rcases List.mem_map.mp hp with ⟨r, hr, rfl⟩
    exact List.mem_map_of_mem _ ((List.mergeSort_perm results.flatten repoLe).mem_iff.mpr hr)

/-- C3: the lock pipeline produces a key sequence that is strictly sorted
(hence each `full_path` occurs exactly once), contains exactly the keys of
the input multiset, and depends only on the input up to permutation. -/
theorem lock_pipeline_spec (results results' : List (List Repository)) :
    ((lock_pipeline results).map (fun r => r.full_path)).Pairwise (· < ·) ∧
    ((lock_pipeline results).map (fun r => r.full_path)).Nodup ∧
    (∀ p, p ∈ (lock_pipeline results).map (fun r => r.full_path) ↔
      p ∈ results.flatten.map (fun r => r.full_path)) ∧
    (results.flatten.Perm results'.flatten →
      (lock_pipeline results).map (fun r => r.full_path) =
        (lock_pipeline results').map (fun r => r.full_path)) := by
  have hsorted : ∀ (rs : List (List Repository)),
      ((lock_pipeline rs).map (fun r => r.full_path)).Pairwise (· < ·) :=
    fun rs => dedupAdj_sorted _ (mergeSort_keys_sorted rs.flatten)
  have hnodup : ∀ (rs : List (List Repository)),
      ((lock_pipeline rs).map (fun r => r.full_path)).Nodup :=
    fun rs => (hsorted rs).imp (fun h => ne_of_lt h)
  refine ⟨hsorted results, hnodup results, lock_pipeline_key_mem results, ?_⟩
  intro hperm
  haveI : IsAntisymm (List String) (· < ·) := ⟨fun a b h h' => absurd h' (lt_asymm h)⟩
  have hmemiff : ∀ p, p ∈ (lock_pipeline results).map (fun r => r.full_path) ↔
      p ∈ (lock_pipeline results').map (fun r => r.full_path) := by
    intro p
    rw [lock_pipeline_key_mem results, lock_pipeline_key_mem results']
    constructor
    · intro hp
      rcases List.mem_map.mp hp with ⟨r, hr, rfl⟩
      exact List.mem_map_of_mem _ (hperm.mem_iff.mp hr)
    · intro hp
      rcases List.mem_map.mp hp with ⟨r, hr, rfl⟩
      exact List.mem_map_of_mem _ (hperm.mem_iff.mpr hr)
  have hp1 : ((lock_pipeline results).map (fun r => r.full_path)).Subperm
      ((lock_pipeline results').map (fun r => r.full_path)) :=
    (hnodup results).subperm (fun p hp => (hmemiff p).mp hp)
  have hp2 : ((lock_pipeline results').map (fun r => r.full_path)).Subperm
      ((lock_pipeline results).map (fun r => r.full_path)) :=
    (hnodup results').subperm (fun p hp => (hmemiff p).mpr hp)
  exact List.eq_of_perm_of_sorted (hp1.antisymm hp2) (hsorted results) (hsorted results')

/-- Witness inputs for C3: the same multiset presented in two different
provider orders, with a duplicated identity key. -/
def lockResultsA : List (List Repository) :=
  [[{ name := "b", full_path := ["h", "b"], origin_url := "u1" }],
   [{ name := "a", full_path := ["h", "a"], origin_url := "u2" },
    { name := "b", full_path := ["h", "b"], origin_url := "u1" }]]

def lockResultsB : List (List Repository) :=
  [[{ name := "a", full_path := ["h", "a"], origin_url := "u2" }],
   [{ name := "b", full_path := ["h", "b"], origin_url := "u1" },
    { name := "b", full_path := ["h", "b"], origin_url := "u1" }]]

/-- Witness for C3, discharging the permutation hypothesis at concrete
inputs. -/
theorem lock_pipeline_spec_witness :
    (lock_pipeline lockResultsA).map (fun r => r.full_path) =
      (lock_pipeline lockResultsB).map (fun r => r.full_path) :=
  (lock_pipeline_spec lockResultsA lockResultsB).2.2.2 (by decide)

/-! ### Claim C2: batch failure semantics of `map_repositories` -/

/-- An `anyhow::Error` as the execution engine observes it: the chain of
messages that `Error::chain` iterates, outermost context first, innermost
cause last. -/
structure ErrChain where
  causes : List String
deriving DecidableEq

/-- The context message wrapped around a thread-pool construction error
(`.with_context(|| "Error creating the thread pool")`). -/
def poolErrorMsg (e : String) : String :=
  "Error creating the thread pool: " ++ e

/-- The per-repository block of the end-of-batch failure report:
`eprintln!("{}:", repo.name())` followed by one `because: {cause}` line per
element of the error's cause chain, innermost cause last. -/
def renderFailure (p : Repository × ErrChain) : List String :=
  (p.1.name ++ ":") :: p.2.causes.map (fun c => "because: " ++ c)

/-- The end-of-batch failure report of `map_repositories`: printed only when
some repository failed, as a count line followed by one block per failure. -/
def renderReport (errors : List (Repository × ErrChain)) : List String :=
  if errors.isEmpty then []
  else (toString errors.length ++ " repositories failed:") :: errors.flatMap renderFailure

/-- The per-repository outcomes of the batch: the `par_iter().map(...)`
stage of `map_repositories`, tagging each failure with its repository. -/
def batchResults (repositories : List Repository) (f : Repository → Except ErrChain Unit) :
    List (Except (Repository × ErrChain) Unit) :=
  repositories.map (fun repo =>
    match f repo with
    | .ok _ => Except.ok ()
    | .error e => Except.error (repo, e))

/-- The `.filter_map(Result::err).collect()` stage. -/
def batchErrors (repositories : List Repository) (f : Repository → Except ErrChain Unit) :
    List (Repository × ErrChain) :=
  (batchResults repositories f).filterMap (fun r =>
    match r with
    | .ok _ => none
    | .error p => some p)

/-- `map_repositories` from `src/main.rs`.  `build` is the outcome of
`rayon::ThreadPoolBuilder::build()` (an environment input: it fails only for
operating-system reasons such as an unusable thread count); `f` is the
per-repository operation.  The returned pair is the collected
`(repository, error)` list and the rendered failure report; the call itself
succeeds whenever the pool was built. -/
def map_repositories (build : Except String Unit) (repositories : List Repository)
    (f : Repository → Except ErrChain Unit) :
    Except String (List (Repository × ErrChain) × List String) :=
  match build with
  | .error e => .error (poolErrorMsg e)
  | .ok _ => .ok (batchErrors repositories f, renderReport (batchErrors repositories f))

/-- C2: if the worker pool is built, the batch applies `f` to every
repository, collects exactly the failing `(repository, error)` pairs (all of
them, with correct attribution), reports each with its full cause chain, and
returns success; the batch call returns an error exactly when the pool
cannot be built, and then no repository is attempted. -/
theorem map_repositories_spec (build : Except String Unit)
    (repositories : List Repository) (f : Repository → Except ErrChain Unit) :
    (∀ e, build = .error e →
      map_repositories build repositories f = .error (poolErrorMsg e)) ∧
    (build = .ok () →
      ∃ errors, map_repositories build repositories f = .ok (errors, renderReport errors) ∧
        errors = repositories.filterMap (fun r =>
          match f r with
          | .ok _ => none
          | .error e => some (r, e)) ∧
        (∀ p ∈ errors, p.1 ∈ repositories ∧ f p.1 = .error p.2) ∧
        (∀ r ∈ repositories, ∀ e, f r = .error e → (r, e) ∈ errors)) := by
  constructor
  · intro e he
    rw [he, map_repositories]
  · intro hb
    rw [hb, map_repositories]
    refine ⟨batchErrors repositories f, rfl, ?_, ?_, ?_⟩
    · rw [batchErrors, batchResults, List.filterMap_map]
      congr 1
      funext r
      cases hf : f r with
      | ok v => rw [Function.comp_apply, hf]
      | error e => rw [Function.comp_apply, hf]
    · intro p hp
      rw [batchErrors, batchResults, List.filterMap_map] at hp
      rcases List.mem_filterMap.mp hp with ⟨r, hr, hfr⟩
      cases hf : f r with
      | ok v =>
        rw [Function.comp_apply, hf] at hfr
        cases hfr
      | error e =>
        rw [Function.comp_apply, hf] at hfr
        cases hfr
        exact ⟨hr, hf⟩
    · intro r hr e hfe
      rw [batchErrors, batchResults, List.filterMap_map]
      apply List.mem_filterMap.mpr
      exact ⟨r, hr, by rw [Function.comp_apply, hfe]⟩

/-- Concrete batch inputs for the C2 witness: `rFail` fails with a two-level
cause chain, `rOk` succeeds. -/
def rFail : Repository := { name := "failing", full_path := ["h", "f"], origin_url := "u" }

def rOk : Repository := { name := "passing", full_path := ["h", "p"], origin_url := "u" }

def fWitness (r : Repository) : Except ErrChain Unit :=
  if r.name == "failing" then .error ⟨["Error running command", "exit status 1"]⟩ else .ok ()

/-- Witness for C2: at concrete inputs the batch returns success and
collects exactly the one failing pair. -/
theorem map_repositories_spec_witness :
    ∃ errors, map_repositories (.ok ()) [rFail, rOk] fWitness =
        .ok (errors, renderReport errors) ∧
      errors = [rFail, rOk].filterMap (fun r =>
        match fWitness r with
        | .ok _ => none
        | .error e => some (r, e)) ∧
      (∀ p ∈ errors, p.1 ∈ [rFail, rOk] ∧ fWitness p.1 = .error p.2) ∧
      (∀ r ∈ [rFail, rOk], ∀ e, fWitness r = .error e → (r, e) ∈ errors) :=
  (map_repositories_spec (.ok ()) [rFail, rOk] fWitness).2 rfl

/-! ### Claim C4: the unattended progress counter

The shared state touched by each worker of `map_repositories` in unattended
mode is the `RelaxedCounter` (created with `RelaxedCounter::new(1)`; `inc`
returns the previous value) and stdout.  Each worker executes, in order:
`let idx = counter.inc()`, `println!("[{idx}/{n}] Starting ...")`, the
operation `f`, `println!("[{idx}/{n}] Finished ...")`.  The increment and
each `println!` are individually atomic, but they are separate statements,
so steps of distinct workers interleave arbitrarily.  We model this with an
explicit scheduler. -/

/-- One worker, reduced to the steps that touch shared state.  `pc = 0`:
about to run `counter.inc()`; `pc = 1`: holds `idx`, about to print the
start line; `pc = 2`: about to print the finish line; `pc = 3`: done. -/
structure WorkerState where
  pc : Nat
  idx : Nat
deriving DecidableEq

/-- The shared state of one batch: the counter, one worker per repository,
and the emitted log lines in emission order (`true` marks a start line,
paired with the counter value printed on it). -/
structure BatchState where
  counter : Nat
  workers : List WorkerState
  output : List (Bool × Nat)
deriving DecidableEq

/-- One atomic step of worker `w`. -/
def stepWorker (s : BatchState) (w : Nat) : BatchState :=
  match s.workers[w]? with
  | none => s
  | some st =>
    if st.pc = 0 then
      { counter := s.counter + 1, workers := s.workers.set w ⟨1, s.counter⟩,
        output := s.output }
    else if st.pc = 1 then
      { counter := s.counter, workers := s.workers.set w ⟨2, st.idx⟩,
        output := s.output ++ [(true, st.idx)] }
    else if st.pc = 2 then
      { counter := s.counter, workers := s.workers.set w ⟨3, st.idx⟩,
        output := s.output ++ [(false, st.idx)] }
    else s

def initBatch (n : Nat) : BatchState :=
  { counter := 1, workers := List.replicate n ⟨0, 0⟩, output := [] }

/-- Run one interleaving: the schedule chooses, at each step, which worker
acts next. -/
def runSchedule (n : Nat) (sched : List Nat) : BatchState :=
  sched.foldl stepWorker (initBatch n)

/-- The counter values on the start lines, in emission order. -/
def startValues (out : List (Bool × Nat)) : List Nat :=
  out.filterMap (fun e => if e.1 then some e.2 else none)

def incF (st : WorkerState) : Option Nat :=
  if 1 ≤ st.pc then some st.idx else none

def startedF (st : WorkerState) : Option Nat :=
  if 2 ≤ st.pc then some st.idx else none

/-- The counter values already handed out to workers. -/
def incIdxs (ws : List WorkerState) : List Nat :=
  ws.filterMap incF

/-- The counter values whose start line has been emitted. -/
def startedIdxs (ws : List WorkerState) : List Nat :=
  ws.filterMap startedF

/-- The execution invariant: the counter is one past the number of handed-out
values, the handed-out values are exactly `1..counter-1`, and the emitted
start values are exactly the values of workers past their start print. -/
def BatchInv (s : BatchState) : Prop :=
  s.counter = 1 + (incIdxs s.workers).length ∧
  (incIdxs s.workers).Perm (List.range' 1 (incIdxs s.workers).length) ∧
  (startValues s.output).Perm (startedIdxs s.workers)

theorem list_decomp {α : Type} (ws : List α) (w : Nat) (h : w < ws.length) :
    ws = ws.take w ++ ws[w] :: ws.drop (w + 1) := by
  conv_lhs => rw [← List.take_append_drop w ws]
  rw [List.drop_eq_getElem_cons h]

theorem filterMap_decomp {α β : Type} (f : α → Option β) (ws : List α) (w : Nat)
    (h : w < ws.length) :
    ws.filterMap f =
      (ws.take w).filterMap f ++ (f ws[w]).toList ++ (ws.drop (w + 1)).filterMap f := by
  conv_lhs => rw [list_decomp ws w h]
  rw [List.filterMap_append, List.filterMap_cons]
  cases hfw : f ws[w] <;> simp [hfw]

theorem filterMap_set {α β : Type} (f : α → Option β) (ws : List α) (w : Nat) (a : α)
    (h : w < ws.length) :
    (ws.set w a).filterMap f =
      (ws.take w).filterMap f ++ (f a).toList ++ (ws.drop (w + 1)).filterMap f := by
  rw [List.set_eq_take_cons_drop a h, List.filterMap_append, List.filterMap_cons]
  cases hfa : f a <;> simp [hfa]

theorem stepWorker_inv {s : BatchState} (hinv : BatchInv s) (w : Nat) :
    BatchInv (stepWorker s w) := by
  obtain ⟨h1, h2, h3⟩ := hinv
  cases hw : s.workers[w]? with
  | none =>
    simp only [stepWorker, hw]
    exact ⟨h1, h2, h3⟩
  | some st =>
    have hlt : w < s.workers.length := by
      by_contra hc
      rw [List.getElem?_eq_none (Nat.le_of_not_lt hc)] at hw
      cases hw
    have hgw : s.workers[w] = st := by
      rcases List.getElem?_eq_some.mp hw with ⟨hlt2, hh⟩
      exact hh
    simp only [stepWorker, hw]
    by_cases hpc0 : st.pc = 0
    · rw [if_pos hpc0]
      have hmidO : incF st = none := by rw [incF, hpc0]; rfl
      have hmidOs : startedF st = none := by rw [startedF, hpc0]; rfl
      have holdI : incIdxs s.workers =
          (s.workers.take w).filterMap incF ++ (s.workers.drop (w + 1)).filterMap incF := by
        rw [incIdxs, filterMap_decomp incF s.workers w hlt, hgw, hmidO]
        simp
      have hnewI : incIdxs (s.workers.set w ⟨1, s.counter⟩) =
          (s.workers.take w).filterMap incF ++ s.counter ::
            (s.workers.drop (w + 1)).filterMap incF := by
        rw [incIdxs, filterMap_set incF s.workers w ⟨1, s.counter⟩ hlt]
        simp [incF]
      have holdS : startedIdxs s.workers =
          (s.workers.take w).filterMap startedF ++
            (s.workers.drop (w + 1)).filterMap startedF := by
        rw [startedIdxs, filterMap_decomp startedF s.workers w hlt, hgw, hmidOs]
        simp
      have hnewS : startedIdxs (s.workers.set w ⟨1, s.counter⟩) =
          (s.workers.take w).filterMap startedF ++
            (s.workers.drop (w + 1)).filterMap startedF := by
        rw [startedIdxs, filterMap_set startedF s.workers w ⟨1, s.counter⟩ hlt]
        simp [startedF]
      rw [holdI] at h1 h2
      refine ⟨?_, ?_, ?_⟩
      · show s.counter + 1 = 1 + (incIdxs (s.workers.set w ⟨1, s.counter⟩)).length
        rw [hnewI, h1]
        simp only [List.length_append, List.length_cons]
        omega
      · show (incIdxs (s.workers.set w ⟨1, s.counter⟩)).Perm
          (List.range' 1 (incIdxs (s.workers.set w ⟨1, s.counter⟩)).length)
        rw [hnewI]
        have hlen : ((s.workers.take w).filterMap incF ++ s.counter ::
            (s.workers.drop (w + 1)).filterMap incF).length =
            ((s.workers.take w).filterMap incF ++
              (s.workers.drop (w + 1)).filterMap incF).length + 1 := by
          simp only [List.length_append, List.length_cons]
          omega
        rw [hlen]
        refine List.Perm.trans List.perm_middle ?_
        refine List.Perm.trans (h2.cons s.counter) ?_
        rw [List.range'_concat, h1]
        simp only [Nat.one_mul]
        exact (List.perm_append_singleton _ _).symm
      · show (startValues s.output).Perm (startedIdxs (s.workers.set w ⟨1, s.counter⟩))
        rw [hnewS]
        rw [holdS] at h3
        exact h3
    · rw [if_neg hpc0]
      by_cases hpc1 : st.pc = 1
      · rw [if_pos hpc1]
        have hmidO : incF st = some st.idx := by rw [incF, hpc1]; rfl
        have hmidN : incF ⟨2, st.idx⟩ = some st.idx := rfl
        have hmidOs : startedF st = none := by rw [startedF, hpc1]; rfl
        have hmidNs : startedF ⟨2, st.idx⟩ = some st.idx := rfl
        have holdI : incIdxs s.workers =
            (s.workers.take w).filterMap incF ++ st.idx ::
              (s.workers.drop (w + 1)).filterMap incF := by
          rw [incIdxs, filterMap_decomp incF s.workers w hlt, hgw, hmidO]
          simp
        have hnewI : incIdxs (s.workers.set w ⟨2, st.idx⟩) =
            (s.workers.take w).filterMap incF ++ st.idx ::
              (s.workers.drop (w + 1)).filterMap incF := by
          rw [incIdxs, filterMap_set incF s.workers w ⟨2, st.idx⟩ hlt, hmidN]
          simp
        have holdS : startedIdxs s.workers =
            (s.workers.take w).filterMap startedF ++
              (s.workers.drop (w + 1)).filterMap startedF := by
          rw [startedIdxs, filterMap_decomp startedF s.workers w hlt, hgw, hmidOs]
          simp
        have hnewS : startedIdxs (s.workers.set w ⟨2, st.idx⟩) =
            (s.workers.take w).filterMap startedF ++ st.idx ::
              (s.workers.drop (w + 1)).filterMap startedF := by
          rw [startedIdxs, filterMap_set startedF s.workers w ⟨2, st.idx⟩ hlt, hmidNs]
          simp
        refine ⟨?_, ?_, ?_⟩
        · show s.counter = 1 + (incIdxs (s.workers.set w ⟨2, st.idx⟩)).length
          rw [hnewI, ← holdI]
          exact h1
        · show (incIdxs (s.workers.set w ⟨2, st.idx⟩)).Perm
            (List.range' 1 (incIdxs (s.workers.set w ⟨2, st.idx⟩)).length)
          rw [hnewI, ← holdI]
          exact h2
        · show (startValues (s.output ++ [(true, st.idx)])).Perm
            (startedIdxs (s.workers.set w ⟨2, st.idx⟩))
          have hsv : startValues (s.output ++ [(true, st.idx)]) =
              startValues s.output ++ [st.idx] := by
            rw [startValues, List.filterMap_append]
            rfl
          rw [hsv, hnewS]
          rw [holdS] at h3
          refine List.Perm.trans (List.perm_append_singleton _ _) ?_
          refine List.Perm.trans (h3.cons st.idx) ?_
          exact List.perm_middle.symm
      · rw [if_neg hpc1]
        by_cases hpc2 : st.pc = 2
        · rw [if_pos hpc2]
          have hmidO : incF st = some st.idx := by
            rw [incF, hpc2]
            rfl
          have hmidN : incF ⟨3, st.idx⟩ = some st.idx := rfl
          have hmidOs : startedF st = some st.idx := by rw [startedF, hpc2]; rfl
          have hmidNs : startedF ⟨3, st.idx⟩ = some st.idx := rfl
          have hIeq : incIdxs (s.workers.set w ⟨3, st.idx⟩) = incIdxs s.workers := by
            rw [incIdxs, filterMap_set incF s.workers w ⟨3, st.idx⟩ hlt, hmidN,
              incIdxs, filterMap_decomp incF s.workers w hlt, hgw, hmidO]
          have hSeq : startedIdxs (s.workers.set w ⟨3, st.idx⟩) = startedIdxs s.workers := by
            rw [startedIdxs, filterMap_set startedF s.workers w ⟨3, st.idx⟩ hlt, hmidNs,
              startedIdxs, filterMap_decomp startedF s.workers w hlt, hgw, hmidOs]
          have hsv : startValues (s.output ++ [(false, st.idx)]) =
              startValues s.output := by
            rw [startValues, List.filterMap_append]
            simp [startValues]
          exact ⟨by rw [hIeq]; exact h1, by rw [hIeq]; exact h2,
            by rw [hsv, hSeq]; exact h3⟩
        · rw [if_neg hpc2]
          exact ⟨h1, h2, h3⟩

theorem incIdxs_replicate (n : Nat) : incIdxs (List.replicate n ⟨0, 0⟩) = [] := by
  induction n with
  | zero => rfl
  | succ k ih => rw [List.replicate_succ, incIdxs, List.filterMap_cons]; exact ih

theorem startedIdxs_replicate (n : Nat) : startedIdxs (List.replicate n ⟨0, 0⟩) = [] := by
  induction n with
  | zero => rfl
  | succ k ih => rw [List.replicate_succ, startedIdxs, List.filterMap_cons]; exact ih

theorem initBatch_inv (n : Nat) : BatchInv (initBatch n) := by
  refine ⟨?_, ?_, ?_⟩
  · show (1 : Nat) = 1 + (incIdxs (List.replicate n ⟨0, 0⟩)).length
    rw [incIdxs_replicate]
    rfl
  · show (incIdxs (List.replicate n ⟨0, 0⟩)).Perm
      (List.range' 1 (incIdxs (List.replicate n ⟨0, 0⟩)).length)
    rw [incIdxs_replicate]
    exact List.Perm.refl []
  · show (startValues []).Perm (startedIdxs (List.replicate n ⟨0, 0⟩))
    rw [startedIdxs_replicate]
    exact List.Perm.refl []

theorem foldl_stepWorker_inv : ∀ (sched : List Nat) (s : BatchState),
    BatchInv s → BatchInv (sched.foldl stepWorker s)
  | [], s, h => h
  | w :: rest, s, h => foldl_stepWorker_inv rest (stepWorker s w) (stepWorker_inv h w)

theorem runSchedule_inv (n : Nat) (sched : List Nat) : BatchInv (runSchedule n sched) :=
  foldl_stepWorker_inv sched (initBatch n) (initBatch_inv n)

theorem foldl_stepWorker_length : ∀ (sched : List Nat) (s : BatchState),
    (sched.foldl stepWorker s).workers.length = s.workers.length
  | [], s => rfl
  | w :: rest, s => by
    rw [List.foldl_cons, foldl_stepWorker_length rest]
    cases hw : s.workers[w]? with
    | none => simp only [stepWorker, hw]
    | some st =>
      simp only [stepWorker, hw]
      by_cases hpc0 : st.pc = 0
      · rw [if_pos hpc0]; exact List.length_set _ _ _
      · rw [if_neg hpc0]
        by_cases hpc1 : st.pc = 1
        · rw [if_pos hpc1]; exact List.length_set _ _ _
        · rw [if_neg hpc1]
          by_cases hpc2 : st.pc = 2
          · rw [if_pos hpc2]; exact List.length_set _ _ _
          · rw [if_neg hpc2]

theorem runSchedule_workers_length (n : Nat) (sched : List Nat) :
    (runSchedule n sched).workers.length = n := by
  rw [runSchedule, foldl_stepWorker_length]
  exact List.length_replicate n _

theorem filterMap_all_some {ws : List WorkerState} (h : ∀ st ∈ ws, 2 ≤ st.pc) :
    incIdxs ws = ws.map (fun st => st.idx) ∧ startedIdxs ws = ws.map (fun st => st.idx) := by
  induction ws with
  | nil => exact ⟨rfl, rfl⟩
  | cons a l ih =>
    have ha : 2 ≤ a.pc := h a (List.mem_cons_self a l)
    have ih' := ih (fun st hst => h st (List.mem_cons_of_mem a hst))
    constructor
    · rw [incIdxs, List.filterMap_cons, incF, if_pos (le_trans (by decide) ha)]
      rw [List.map_cons]
      rw [incIdxs] at ih'
      rw [ih'.1]
    · rw [startedIdxs, List.filterMap_cons, startedF, if_pos ha]
      rw [List.map_cons]
      rw [startedIdxs] at ih'
      rw [ih'.2]

/-- C4 (amended): in unattended mode, for every batch of `n` repositories
and every complete interleaving of the workers, the counter values on the
emitted start lines are exactly `1, 2, ..., n`, each exactly once (a
permutation of `1..n`); they need not appear in increasing order, because a
worker may be preempted between its increment and its print. -/
theorem startValues_perm_range (n : Nat) (sched : List Nat)
    (h : ∀ st ∈ (runSchedule n sched).workers, 2 ≤ st.pc) :
    (startValues (runSchedule n sched).output).Perm (List.range' 1 n) := by
  obtain ⟨h1, h2, h3⟩ := runSchedule_inv n sched
  obtain ⟨hI, hS⟩ := filterMap_all_some h
  have hlen : (incIdxs (runSchedule n sched).workers).length = n := by
    rw [hI, List.length_map, runSchedule_workers_length]
  rw [hlen] at h2
  refine h3.trans ?_
  rw [hS, ← hI]
  exact h2

/-- C4 counterexample: the schedule `[0, 1, 1, 0, 0, 1]` runs both workers
to completion, but worker 1 prints its start line (counter value 2) before
worker 0 prints its own (counter value 1): the emitted start values are
`[2, 1]`, not the strictly increasing gapless sequence `[1, 2]` the claim
requires. -/
theorem counter_claim_counterexample :
    startValues (runSchedule 2 [0, 1, 1, 0, 0, 1]).output = [2, 1] ∧
    (∀ st ∈ (runSchedule 2 [0, 1, 1, 0, 0, 1]).workers, 2 ≤ st.pc) ∧
    startValues (runSchedule 2 [0, 1, 1, 0, 0, 1]).output ≠ List.range' 1 2 := by
  decide

/-- Witness for C4 (amended) at a concrete complete schedule. -/
theorem startValues_perm_range_witness :
    (startValues (runSchedule 2 [0, 1, 1, 0, 0, 1]).output).Perm (List.range' 1 2) :=
  startValues_perm_range 2 [0, 1, 1, 0, 0, 1] (by decide)

/-! ### Claim C5: plan execution (`archive_repositories`) -/

/-- Find the directory node (not just its children) at path `p`. -/
def lookupNode : List FsTree → DirPath → Option FsTree
  | _, [] => none
  | cs, [n] => cs.find? (fun t => t.name == n)
  | cs, n :: p =>
    match cs.find? (fun t => t.name == n) with
    | some t => lookupNode t.children p
    | none => none

/-- `fs_extra::dir::create_all`: ensure every directory along `p` exists,
creating missing ones.  In the pure model (directories only, no permission
failures) this cannot fail. -/
def createAll : List FsTree → DirPath → List FsTree
  | cs, [] => cs
  | cs, n :: p =>
    if cs.any (fun t => t.name == n) then
      cs.map (fun t =>
        if t.name == n then FsTree.node t.name t.readErr (createAll t.children p) else t)
    else cs ++ [FsTree.node n false (createAll [] p)]

/-- Remove the directory node at `p`. -/
def removeAt : List FsTree → DirPath → List FsTree
  | cs, [] => cs
  | cs, [n] => cs.filter (fun t => !(t.name == n))
  | cs, n :: p =>
    cs.map (fun t =>
      if t.name == n then FsTree.node t.name t.readErr (removeAt t.children p) else t)

/-- Insert tree `t` as a child of the directory at `p`. -/
def insertAt : List FsTree → DirPath → FsTree → List FsTree
  | cs, [], t => cs ++ [t]
  | cs, n :: p, t =>
    cs.map (fun c =>
      if c.name == n then FsTree.node c.name c.readErr (insertAt c.children p t) else c)

/-- `std::fs::rename(from, to)`: fails if the source does not exist or the
destination already exists; otherwise moves the subtree to its new name. -/
def renameDir (cs : List FsTree) (fromP toP : DirPath) : Option (List FsTree) :=
  match toP.getLast? with
  | none => none
  | some newName =>
    if (lookupNode cs toP).isSome then none
    else
      match lookupNode cs fromP with
      | none => none
      | some t =>
        some (insertAt (removeAt cs fromP) toP.dropLast
          (FsTree.node newName t.readErr t.children))

/-- One line of output of the plan-execution loop: either the
`Moved {from} to {to}` success line or the per-entry
`Error moving directory!` report. -/
inductive ArchiveEvent where
  | moved (fromP toP : DirPath)
  | renameError (fromP toP : DirPath)
deriving DecidableEq

def ArchiveEvent.entry : ArchiveEvent → DirPath × DirPath
  | .moved f t => (f, t)
  | .renameError f t => (f, t)

/-- `archive_repositories` from `src/main.rs`: for each `(from, to)` pair,
take the destination's parent (an error aborts only if the destination has
no parent), create the parent directories, and rename; a rename failure is
reported for that entry and the loop continues.  Returns the final
filesystem and the per-entry events in order. -/
def archive_repositories (to_archive : List (DirPath × DirPath)) (cs : List FsTree) :
    Except String (List FsTree × List ArchiveEvent) :=
  match to_archive with
  | [] => .ok (cs, [])
  | (from_dir, to_dir) :: rest =>
    if to_dir.isEmpty then
      .error "Failed to get the parent directory"
    else
      match renameDir (createAll cs to_dir.dropLast) from_dir to_dir with
      | some cs2 =>
        match archive_repositories rest cs2 with
        | .error e => .error e
        | .ok (csF, evs) => .ok (csF, .moved from_dir to_dir :: evs)
      | none =>
        match archive_repositories rest (createAll cs to_dir.dropLast) with
        | .error e => .error e
        | .ok (csF, evs) => .ok (csF, .renameError from_dir to_dir :: evs)

/-- C5: during plan execution, every entry whose destination is a real path
(nonempty, as every detector-produced destination `archive/…` is) is
attempted: each produces exactly one event, in order — either a move or a
per-entry rename-failure report — and `archive_repositories` returns
success even when some renames failed. -/
theorem archive_repositories_attempts_all :
    ∀ (to_archive : List (DirPath × DirPath)) (cs : List FsTree),
    (∀ e ∈ to_archive, e.2 ≠ []) →
    ∃ csF evs, archive_repositories to_archive cs = .ok (csF, evs) ∧
      evs.map ArchiveEvent.entry = to_archive
  | [], cs, _ => ⟨cs, [], rfl, rfl⟩
  | (from_dir, to_dir) :: rest, cs, h => by
    have ht : to_dir ≠ [] := h (from_dir, to_dir) (List.mem_cons_self _ _)
    have hne : to_dir.isEmpty = false := by
      cases to_dir with
      | nil => exact absurd rfl ht
      | cons a l => rfl
    rw [archive_repositories, hne, if_neg Bool.false_ne_true]
    split
    · rename_i cs2 hr
      obtain ⟨csF, evs, heq, hmap⟩ :=
        archive_repositories_attempts_all rest cs2
          (fun e he => h e (List.mem_cons_of_mem _ he))
      rw [heq]
      refine ⟨csF, .moved from_dir to_dir :: evs, rfl, ?_⟩
      rw [List.map_cons, hmap]
      rfl
    · rename_i hr
      obtain ⟨csF, evs, heq, hmap⟩ :=
        archive_repositories_attempts_all rest (createAll cs to_dir.dropLast)
          (fun e he => h e (List.mem_cons_of_mem _ he))
      rw [heq]
      refine ⟨csF, .renameError from_dir to_dir :: evs, rfl, ?_⟩
      rw [List.map_cons, hmap]
      rfl

/-- The C5 witness workspace: the destination of the first entry already
exists under the archive, so its rename fails; the second entry's rename
succeeds. -/
def fsCollide : List FsTree :=
  [.node "a" false [.node "b" false [gitMarker]],
   .node "c" false [.node "d" false [gitMarker]],
   .node archiveName false [.node "a" false [.node "b" false []]]]

def planCollide : List (DirPath × DirPath) :=
  [(["a", "b"], [archiveName, "a", "b"]), (["c", "d"], [archiveName, "c", "d"])]

/-- Witness for C5: both entries are attempted; the first is reported as a
rename failure, the second is moved, and the call returns success. -/
theorem archive_repositories_attempts_all_witness :
    (∃ csF evs, archive_repositories planCollide fsCollide = .ok (csF, evs) ∧
      evs.map ArchiveEvent.entry = planCollide) ∧
    (archive_repositories planCollide fsCollide).map (fun r => r.2) =
      .ok [.renameError ["a", "b"] [archiveName, "a", "b"],
           .moved ["c", "d"] [archiveName, "c", "d"]] :=
  ⟨archive_repositories_attempts_all planCollide fsCollide (by decide), by decide⟩

/-! ### Claim C9: archiving is idempotent -/

/-- The C9 scenario workspace: a declared repository `x/y` and an orphan
`old/proj` containing `.git` with no matching lockfile entry. -/
def fsOrphan : List FsTree :=
  [treeXY, .node "old" false [.node "proj" false [gitMarker]]]

/-- The workspace after `archive --force`: `old/proj` has moved to
`.archive/old/proj`; the now-empty `old` remains. -/
def fsMoved : List FsTree :=
  [treeXY, .node "old" false [],
   .node archiveName false [.node "old" false [.node "proj" false [gitMarker]]]]

/-- C9: `archive --force` on the scenario workspace computes the plan
`[(old/proj, .archive/old/proj)]`, moves the orphan to
`.archive/old/proj` (removing it from its original location), and a second
run on the resulting workspace computes an empty plan and moves nothing:
the archive root is in the protected set and is never descended into. -/
theorem archive_force_idempotent :
    get_all_repositories_to_archive fsOrphan false [repoXY] =
      .ok [(["old", "proj"], [archiveName, "old", "proj"])] ∧
    archive_repositories [(["old", "proj"], [archiveName, "old", "proj"])] fsOrphan =
      .ok (fsMoved, [.moved ["old", "proj"] [archiveName, "old", "proj"]]) ∧
    lookupNode fsMoved ["old", "proj"] = none ∧
    gitAt fsMoved [archiveName, "old", "proj"] = true ∧
    get_all_repositories_to_archive fsMoved false [repoXY] = .ok [] ∧
    archive_repositories [] fsMoved = .ok (fsMoved, []) := by
  decide

/-! ### Claims C7 and C8: the update command -/

/-- The externally visible git actions the `update` closure can perform on
a repository. -/
inductive Action where
  | clone (r : Repository)
  | setUpstream (r : Repository)
deriving DecidableEq

def Action.repoOf : Action → Repository
  | .clone r => r
  | .setUpstream r => r

/-- The per-repository closure of `update` (`src/main.rs` lines 247-255):
clone only repositories that do not exist on disk, then register the
upstream remote; the `?` operator skips `set_upstream` when the clone
failed.  `cloneRes` and `setUpRes` are the outcomes of the external
version-control invocations (environment inputs).  Returns the actions
attempted and the closure's result. -/
def update_step (cloneRes setUpRes : Repository → Except ErrChain Unit)
    (ts : List FsTree) (r : Repository) : List Action × Except ErrChain Unit :=
  if r.existsOnDisk ts then ([], .ok ())
  else
    match cloneRes r with
    | .error e => ([.clone r], .error e)
    | .ok _ =>
      match setUpRes r with
      | .error e => ([.clone r, .setUpstream r], .error e)
      | .ok _ => ([.clone r, .setUpstream r], .ok ())

/-- All actions performed by the batch of `update` (the engine attempts
every repository). -/
def update_actions (cloneRes setUpRes : Repository → Except ErrChain Unit)
    (ts : List FsTree) (repos : List Repository) : List Action :=
  repos.flatMap (fun r => (update_step cloneRes setUpRes ts r).1)

theorem update_step_repoOf {cloneRes setUpRes : Repository → Except ErrChain Unit}
    {ts : List FsTree} {r : Repository} {a : Action}
    (ha : a ∈ (update_step cloneRes setUpRes ts r).1) : a.repoOf = r := by
  rw [update_step] at ha
  split at ha
  · cases ha
  · split at ha
    · rw [List.mem_singleton] at ha
      rw [ha]
      rfl
    · split at ha <;>
      · rcases List.mem_cons.mp ha with rfl | ha'
        · rfl
        · rw [List.mem_singleton] at ha'
          rw [ha']
          rfl

/-- C7: during `update`, a declared repository that exists on disk receives
no action at all (no clone, no upstream registration); one that does not
exist is cloned and, when the clone succeeds, has its upstream remote
registered. -/
theorem update_clones_only_missing
    (cloneRes setUpRes : Repository → Except ErrChain Unit) (ts : List FsTree)
    (repos : List Repository) (r : Repository) (hr : r ∈ repos) :
    (r.existsOnDisk ts = true →
      ∀ a ∈ update_actions cloneRes setUpRes ts repos, a.repoOf ≠ r) ∧
    (r.existsOnDisk ts = false → cloneRes r = .ok () →
      Action.clone r ∈ update_actions cloneRes setUpRes ts repos ∧
      Action.setUpstream r ∈ update_actions cloneRes setUpRes ts repos) := by
  constructor
  · intro hex a ha hcontra
    rcases List.mem_flatMap.mp ha with ⟨r', hr', ha'⟩
    have : a.repoOf = r' := update_step_repoOf ha'
    rw [hcontra] at this
    subst this
    rw [update_step, if_pos hex] at ha'
    cases ha'
  · intro hex hclone
    have hstep : (update_step cloneRes setUpRes ts r).1 =
        [Action.clone r, Action.setUpstream r] := by
      rw [update_step, hex, if_neg Bool.false_ne_true, hclone]
      cases setUpRes r <;> rfl
    constructor
    · exact List.mem_flatMap.mpr ⟨r, hr, by rw [hstep]; exact List.mem_cons_self _ _⟩
    · exact List.mem_flatMap.mpr ⟨r, hr,
        by rw [hstep]; exact List.mem_cons_of_mem _ (List.mem_cons_self _ _)⟩

/-- The declared-but-missing repository used in the C7 witness. -/
def repoAC : Repository :=
  { name := "c", full_path := ["a", "c"], origin_url := "origin2" }

/-- Witness for C7: in a workspace where `x/y` exists and `a/c` does not,
`x/y` receives no action while `a/c` is cloned and gets its upstream. -/
theorem update_clones_only_missing_witness :
    (∀ a ∈ update_actions (fun _ => .ok ()) (fun _ => .ok ()) [treeXY] [repoXY, repoAC],
      a.repoOf ≠ repoXY) ∧
    Action.clone repoAC ∈
      update_actions (fun _ => .ok ()) (fun _ => .ok ()) [treeXY] [repoXY, repoAC] ∧
    Action.setUpstream repoAC ∈
      update_actions (fun _ => .ok ()) (fun _ => .ok ()) [treeXY] [repoXY, repoAC] := by
  constructor
  · exact (update_clones_only_missing (fun _ => .ok ()) (fun _ => .ok ()) [treeXY]
      [repoXY, repoAC] repoXY (by decide)).1 (by decide)
  · exact (update_clones_only_missing (fun _ => .ok ()) (fun _ => .ok ()) [treeXY]
      [repoXY, repoAC] repoAC (by decide)).2 (by decide) rfl

/-- The archivable-orphans report at the end of `update` (`src/main.rs`
lines 257-267): printed only when the plan is nonempty. -/
def update_report (plan : List (DirPath × DirPath)) : List String :=
  if plan.isEmpty then []
  else ["There are " ++ toString plan.length ++ " repositories that can be archived",
        "Run `git workspace archive` to archive them"]

/-- Modelled from the spec: a successful `Repository::clone` materializes
the repository's directory (with its `.git` metadata) at its resolved
path. -/
def cloneInto (cs : List FsTree) (r : Repository) : List FsTree :=
  match r.full_path.getLast? with
  | none => cs
  | some n =>
    insertAt (createAll cs r.full_path.dropLast) r.full_path.dropLast
      (FsTree.node n false [gitMarker])

/-- The filesystem after the clone phase of `update`. -/
def postCloneFs (cloneRes : Repository → Except ErrChain Unit) (ts : List FsTree)
    (repos : List Repository) : List FsTree :=
  repos.foldl (fun acc r =>
    if r.existsOnDisk acc then acc
    else
      match cloneRes r with
      | .ok _ => cloneInto acc r
      | .error _ => acc) ts

/-- The observable outcome of one `update` invocation: the git actions, the
per-repository batch failures, the computed archivable plan, and the
archivable-report lines. -/
structure UpdateOut where
  actions : List Action
  errors : List (Repository × ErrChain)
  archivable : List (DirPath × DirPath)
  report : List String
deriving DecidableEq

/-- `update` from `src/main.rs`: read the lockfile (`repos`), run the batch
(clone missing repositories, register upstreams), then compute the
archivable orphans on the resulting filesystem and report them.  Fails only
if the pool cannot be built or the detection walk errors. -/
def update (build : Except String Unit)
    (cloneRes setUpRes : Repository → Except ErrChain Unit)
    (ts : List FsTree) (rootErr : Bool) (repos : List Repository) :
    Except String UpdateOut :=
  match build with
  | .error e => .error (poolErrorMsg e)
  | .ok _ =>
    match get_all_repositories_to_archive (postCloneFs cloneRes ts repos) rootErr repos with
    | .error e => .error e
    | .ok plan =>
      .ok { actions := update_actions cloneRes setUpRes ts repos,
            errors := repos.filterMap (fun r =>
              match (update_step cloneRes setUpRes ts r).2 with
              | .ok _ => none
              | .error e => some (r, e)),
            archivable := plan,
            report := update_report plan }

/-- C8 (amended): at the end of a successful `update`, the archivable-orphan
count is reported only when it is nonzero; when no orphan directories
exist, nothing is printed about archiving. -/
theorem update_reports_archivable_only_when_nonempty
    (build : Except String Unit) (cloneRes setUpRes : Repository → Except ErrChain Unit)
    (ts : List FsTree) (rootErr : Bool) (repos : List Repository) (out : UpdateOut)
    (h : update build cloneRes setUpRes ts rootErr repos = .ok out) :
    (out.archivable = [] → out.report = []) ∧
    (out.archivable ≠ [] →
      out.report = ["There are " ++ toString out.archivable.length ++
          " repositories that can be archived",
        "Run `git workspace archive` to archive them"]) := by
  rw [update.eq_def] at h
  split at h
  · cases h
  · split at h
    · cases h
    · rename_i plan hplan
      cases h
      constructor
      · intro hempty
        show update_report plan = []
        have : plan.isEmpty = true := by
          rw [show plan = ([] : List (DirPath × DirPath)) from hempty]
          rfl
        rw [update_report, this, if_pos rfl]
      · intro hne
        show update_report plan = _
        have : plan.isEmpty = false := by
          cases plan with
          | nil => exact absurd rfl hne
          | cons a l => rfl
        rw [update_report, this, if_neg Bool.false_ne_true]

/-- C8 counterexample: the claim as stated is false.  On a workspace where
every declared repository exists and no orphan directories exist, `update`
completes successfully with an empty archivable plan and prints nothing at
all about archivable repositories — the zero count is not reported. -/
theorem update_zero_report_counterexample :
    update (.ok ()) (fun _ => .ok ()) (fun _ => .ok ()) [treeXY] false [repoXY] =
      .ok { actions := [], errors := [], archivable := [], report := [] } := by
  decide

/-- The `update` outcome on the orphan scenario, used as the C8 witness. -/
def updateOutOrphan : UpdateOut :=
  { actions := [], errors := [],
    archivable := [(["old", "proj"], [archiveName, "old", "proj"])],
    report := ["There are 1 repositories that can be archived",
               "Run `git workspace archive` to archive them"] }

/-- Witness for C8 (amended): on the orphan workspace the count line is
printed; the zero case prints nothing (see the counterexample input). -/
theorem update_reports_archivable_only_when_nonempty_witness :
    (updateOutOrphan.archivable = [] → updateOutOrphan.report = []) ∧
    (updateOutOrphan.archivable ≠ [] →
      updateOutOrphan.report = ["There are " ++ toString updateOutOrphan.archivable.length ++
          " repositories that can be archived",
        "Run `git workspace archive` to archive them"]) :=
  update_reports_archivable_only_when_nonempty (.ok ()) (fun _ => .ok ())
    (fun _ => .ok ()) fsOrphan false [repoXY] updateOutOrphan (by decide)

/-! ### Claim C10: archive without --force on an empty plan -/

def pathDisplay (p : DirPath) : String := String.intercalate "/" p

/-- The `Move {from} to {to}` preview line. -/
def moveLine (e : DirPath × DirPath) : String :=
  "Move " ++ pathDisplay e.1 ++ " to " ++ pathDisplay e.2

/-- The `Will archive {n} projects` count line. -/
def countLine (n : Nat) : String := "Will archive " ++ toString n ++ " projects"

/-- What one run of the `Command::Archive` branch of `handle_main` printed,
whether it invoked the confirmation prompt, and whether it invoked
`archive_repositories`. -/
structure ArchiveCmdOut where
  printed : List String
  prompted : Bool
  archived : Bool
deriving DecidableEq

/-- The `Command::Archive` branch of `handle_main` (`src/main.rs` lines
166-195), after the plan has been computed.  `confirmAnswer` is what
`utils::confirm` would return if consulted.  Without `--force` the preview
and count are printed; then `repos_to_archive.is_empty() || !confirm(...)`
short-circuits, so the prompt is only shown for a nonempty plan; relocation
runs only for a nonempty, confirmed plan. -/
def archive_command (force : Bool) (confirmAnswer : Bool)
    (plan : List (DirPath × DirPath)) : ArchiveCmdOut :=
  if !force then
    if plan.isEmpty || !confirmAnswer then
      { printed := plan.map moveLine ++ [countLine plan.length],
        prompted := !plan.isEmpty, archived := false }
    else
      { printed := plan.map moveLine ++ [countLine plan.length],
        prompted := true, archived := !plan.isEmpty }
  else
    { printed := [], prompted := false, archived := !plan.isEmpty }

/-- C10: invoked without `--force` on an empty plan, the archive command
prints the zero count, never prompts for confirmation, and performs no
relocation, whatever the prompt would have answered; the command returns
success (the model is total, as the source returns `Ok(())` on this path). -/
theorem archive_command_empty_plan (confirmAnswer : Bool) :
    archive_command false confirmAnswer [] =
      { printed := [countLine 0], prompted := false, archived := false } := by
  cases confirmAnswer <;> rfl

end GitWorkspace
